import Mathlib

/-!
Shallow embedding of the columnar-storage core of the hyrise fork:
dictionary compression (`src/lib/storage/dictionary_compression.cpp`) and
the table-access operator with chunk pruning (`src/lib/operators/get_table.cpp`).

Machine integers are modelled as `Nat`; value columns are generic over a
linearly ordered element type `α` (the C++ code is a template over the
closed set of scalar types).  The standard-library calls of the source are
embedded by their contracts: `std::sort` as a sorted permutation
(`List.insertionSort (· ≤ ·)`), `std::unique` as adjacent deduplication,
`std::lower_bound` as the first position whose element is not `< value`.
-/

namespace opossum

/-- Element-type tags (spec §3: the closed set of scalar kinds).  The
compression engine only inspects the length of the tag vector; the typed
dispatch (`resolve_type.hpp`, not part of the sources) is uniform in the
embedding, which fixes one element type per chunk. -/
inductive DataType
  | int
  | long
  | float
  | double
  | string
deriving DecidableEq

/-- Modelled from the spec: `types.hpp` is not among the sources; spec §3
says the reserved `NULL_VALUE_ID` equals zero. -/
def NULL_VALUE_ID : Nat := 0

/-- Value column: ordered values plus, when nullable, a parallel null mask
(`value_column.hpp` is not among the sources; fields follow spec §4.2 and
the accesses `values()` / `is_nullable()` / `null_values()` made by
`dictionary_compression.cpp`). -/
structure ValueColumn (α : Type) where
  values : List α
  null_values : Option (List Bool)
deriving DecidableEq

/-- Well-formedness from spec §4.2: the null mask has the same length as
the value sequence. -/
def ValueColumn.wf {α : Type} (vc : ValueColumn α) : Prop :=
  match vc.null_values with
  | none => True
  | some ns => ns.length = vc.values.length

/-- Whether row `i` is null: `false` everywhere for a non-nullable column. -/
def ValueColumn.isNullRow {α : Type} (vc : ValueColumn α) (i : Nat) : Bool :=
  match vc.null_values with
  | none => false
  | some ns => ns.getD i false

/-- Width-fitted attribute vector: entries plus the byte width chosen at
construction (`fitted_attribute_vector.hpp` holds the byte buffer; the
sequential `set` calls of the compressor build `entries` in row order). -/
structure FittedAttributeVector where
  width : Nat
  entries : List Nat
deriving DecidableEq

/-- Per-column statistics: `ChunkColumnStatistics<T>(min, max)`. -/
structure ChunkColumnStatistics (α : Type) where
  min : α
  max : α
deriving DecidableEq

/-- Dictionary column: sorted unique dictionary plus attribute vector. -/
structure DictionaryColumn (α : Type) where
  dictionary : List α
  attribute_vector : FittedAttributeVector
deriving DecidableEq

/-- A column is either a (still mutable) value column or an (already
compressed) dictionary column; `dynamic_pointer_cast<const ValueColumn<T>>`
succeeds exactly on the first alternative. -/
inductive Column (α : Type) where
  | value (vc : ValueColumn α)
  | dictionary (dc : DictionaryColumn α)
deriving DecidableEq

/-- Errors surfaced by the compression engine.  `alreadyCompressed` is the
always-on `Assert` in `ColumnCompressor::compress_column` ("Column is
either already compressed or type mismatches.", the spec's State error);
`debugAssert` is a `DebugAssert`, which is active only in debug builds. -/
inductive CompressionError
  | alreadyCompressed
  | debugAssert
deriving DecidableEq

/-- Byte width chosen by `ColumnCompressorBase::_create_fitted_attribute_vector`:
`uint8_t` when `unique_values_count <= 255`, `uint16_t` when `<= 65535`,
else `uint32_t`. -/
def fittedWidth (unique_values_count : Nat) : Nat :=
  if unique_values_count ≤ 255 then 1
  else if unique_values_count ≤ 65535 then 2
  else 4

/-- Embedding of `std::lower_bound` on a list: index of the first element
that is not `< value` (the list's length when every element is). -/
def lower_bound {α : Type} [LinearOrder α] (l : List α) (value : α) : Nat :=
  l.findIdx (fun x => !decide (x < value))

/-- `ColumnCompressor::get_value_id`: the distance from the beginning of the
dictionary to the `lower_bound` position of `value`.  Note: the source does
not add 1 to this distance. -/
def get_value_id {α : Type} [LinearOrder α] (dictionary : List α) (value : α) : Nat :=
  lower_bound dictionary value

/-- Exchange of the entries at positions `i` and `j` (`std::swap` through
iterators); identity when either position is out of range. -/
def listSwap {α : Type} (l : List α) (i j : Nat) : List α :=
  match l[i]?, l[j]? with
  | some a, some b => (l.set i b).set j a
  | _, _ => l

/-- Null-partition loop of `compress_column` (lines 57–63): walk the scratch
copy from the tail (`i` counts the positions still to visit, so step `k`
visits position `i-1`); whenever the null mask is set, swap the entry
outward to position `e-1` and shrink the kept prefix `e`. -/
def partitionNullsGo {α : Type} (null_values : List Bool) :
    List α → Nat → Nat → List α × Nat
  | arr, e, 0 => (arr, e)
  | arr, e, i + 1 =>
    if null_values.getD i false then
      partitionNullsGo null_values (listSwap arr i (e - 1)) (e - 1) i
    else
      partitionNullsGo null_values arr e i

/-- Lines 53–67 of `dictionary_compression.cpp`: partition the null-masked
entries to the tail of the scratch copy, then erase that tail. -/
def removeNulls {α : Type} (values : List α) (null_values : List Bool) : List α :=
  let p := partitionNullsGo null_values values values.length values.length
  p.1.take p.2

/-- Embedding of `std::unique` + `erase`: drop adjacent duplicates in one
pass. -/
def dedupAdj {α : Type} [DecidableEq α] : List α → List α
  | [] => []
  | [a] => [a]
  | a :: b :: rest =>
    if a = b then dedupAdj (b :: rest) else a :: dedupAdj (b :: rest)

/-- Scratch sequence after the null removal of lines 50–67: a copy of the
values with, for a nullable column, the null-masked entries dropped. -/
def dictionaryScratch {α : Type} (value_column : ValueColumn α) : List α :=
  match value_column.null_values with
  | some null_values => removeNulls value_column.values null_values
  | none => value_column.values

/-- Dictionary after lines 69–71: sort the scratch ascending
(`std::sort`), then drop adjacent duplicates (`std::unique` + `erase`). -/
def compressedDictionary {α : Type} [LinearOrder α] [DecidableEq α]
    (value_column : ValueColumn α) : List α :=
  dedupAdj (List.insertionSort (· ≤ ·) (dictionaryScratch value_column))

/-- Byte width of line 74: the attribute vector is fitted from
`dictionary.size() + 1` ("because of possible null values"). -/
def compressedWidth {α : Type} [LinearOrder α] [DecidableEq α]
    (value_column : ValueColumn α) : Nat :=
  fittedWidth ((compressedDictionary value_column).length + 1)

/-- Attribute-vector fill of lines 76–102: one entry per row in order;
`NULL_VALUE_ID` for a null row, `get_value_id` of the row's value
otherwise. -/
def compressedEntries {α : Type} [LinearOrder α] [DecidableEq α]
    (value_column : ValueColumn α) : List Nat :=
  match value_column.null_values with
  | some null_values =>
    (value_column.values.zip null_values).map fun p =>
      if p.2 then NULL_VALUE_ID else get_value_id (compressedDictionary value_column) p.1
  | none =>
    value_column.values.map fun v => get_value_id (compressedDictionary value_column) v

/-- Statistics of lines 104–108: none when the dictionary is empty,
otherwise its first and last entry. -/
def compressedStatistics {α : Type} [LinearOrder α] [DecidableEq α]
    (value_column : ValueColumn α) : Option (ChunkColumnStatistics α) :=
  match compressedDictionary value_column with
  | [] => none
  | x :: xs => some ⟨x, xs.getLastD x⟩

/-- `ColumnCompressor<T>::compress_column` (lines 41–112): reject an already
compressed column (the `dynamic_pointer_cast` + `Assert` of lines 43–45);
otherwise build the dictionary, the fitted attribute vector and the
optional statistics. -/
def ColumnCompressor.compress_column {α : Type} [LinearOrder α] [DecidableEq α]
    (column : Column α) :
    Except CompressionError (Column α × Option (ChunkColumnStatistics α)) :=
  match column with
  | .dictionary _ => .error .alreadyCompressed
  | .value value_column =>
    .ok (.dictionary ⟨compressedDictionary value_column,
          ⟨compressedWidth value_column, compressedEntries value_column⟩⟩,
        compressedStatistics value_column)

/-- Chunk: one column per table column plus the statistics installed by the
compression engine (`chunk.hpp` is not among the sources; fields follow
spec §3 and the calls `column_count` / `get_mutable_column` /
`replace_column` / `set_statistics` made by the sources.  The opaque MVCC
vectors are omitted: no claim mentions them). -/
structure Chunk (α : Type) where
  columns : List (Column α)
  statistics : Option (List (Option (ChunkColumnStatistics α)))
deriving DecidableEq

/-- Table: schema types, chunk-size policy and the ordered chunk sequence
(`table.hpp` is not among the sources; fields follow spec §3 and the calls
`column_types` / `chunk_count` / `get_chunk` / `max_chunk_size` /
`create_with_layout_from` / `emplace_chunk` made by the sources.  Column
names are omitted: no claim mentions them). -/
structure Table (α : Type) where
  column_types : List DataType
  max_chunk_size : Nat
  chunks : List (Chunk α)
deriving DecidableEq

/-- Column loop of `DictionaryCompression::compress_chunk` (lines 133–138):
compress each column in ascending column-id order, replacing it in place
and accumulating its statistics.  In-place mutation under exceptions is
explicit: when an error escapes, the already processed prefix stays
replaced and the failing column and the remainder stay untouched. -/
def compressColumnsGo {α : Type} [LinearOrder α] [DecidableEq α] :
    List (Column α) →
    Except CompressionError (List (Option (ChunkColumnStatistics α))) × List (Column α)
  | [] => (.ok [], [])
  | c :: cs =>
    match ColumnCompressor.compress_column c with
    | .error e => (.error e, c :: cs)
    | .ok (dict_column, stats) =>
      match compressColumnsGo cs with
      | (.error e, cs') => (.error e, dict_column :: cs')
      | (.ok rest, cs') => (.ok (stats :: rest), dict_column :: cs')

/-- `DictionaryCompression::compress_chunk` (lines 126–148): in a debug
build a `DebugAssert` checks that the column-type vector matches the
chunk's column count (a release build compiles the check away); then every
column is compressed and replaced in order and the statistics are
installed on the chunk.  The returned chunk is the state left behind,
also when an error escapes.  The per-column type tag `column_types[i]`
only selects the compressor instantiation (`resolve_type.hpp`), which is
uniform in the embedding. -/
def DictionaryCompression.compress_chunk {α : Type} [LinearOrder α] [DecidableEq α]
    (debug : Bool) (column_types : List DataType) (chunk : Chunk α) :
    Except CompressionError (List (Option (ChunkColumnStatistics α))) × Chunk α :=
  if debug ∧ column_types.length ≠ chunk.columns.length then
    (.error .debugAssert, chunk)
  else
    match compressColumnsGo chunk.columns with
    | (.error e, cols') => (.error e, { chunk with columns := cols' })
    | (.ok stats, cols') => (.ok stats, { columns := cols', statistics := some stats })

/-- Chunk loop of `DictionaryCompression::compress_table` (lines 162–170),
threading the per-chunk mutations; an escaping error leaves the earlier
chunks as mutated and the later ones untouched. -/
def compressTableGo {α : Type} [LinearOrder α] [DecidableEq α]
    (debug : Bool) (column_types : List DataType) :
    List (Chunk α) →
    Except CompressionError (List (List (Option (ChunkColumnStatistics α)))) × List (Chunk α)
  | [] => (.ok [], [])
  | c :: cs =>
    match DictionaryCompression.compress_chunk debug column_types c with
    | (.error e, c') => (.error e, c' :: cs)
    | (.ok stats, c') =>
      match compressTableGo debug column_types cs with
      | (.error e, cs') => (.error e, c' :: cs')
      | (.ok rest, cs') => (.ok (stats :: rest), c' :: cs')

/-- `DictionaryCompression::compress_table`: visit every chunk in index
order with the table's column types. -/
def DictionaryCompression.compress_table {α : Type} [LinearOrder α] [DecidableEq α]
    (debug : Bool) (table : Table α) :
    Except CompressionError (List (List (Option (ChunkColumnStatistics α)))) × Table α :=
  match compressTableGo debug table.column_types table.chunks with
  | (r, chunks') => (r, { table with chunks := chunks' })

/-- Error of the table-access operator.  Modelled from the spec:
`storage_manager.hpp` is not among the sources; spec §4.4 and §7 make a
missing table a NotFound error. -/
inductive GetTableError
  | notFound
deriving DecidableEq

/-- `GetTable` operator state: the table name from the constructor and the
optional exclusion set supplied by `set_excluded_chunks`. -/
structure GetTable where
  _name : String
  _excluded_chunks : Option (List Nat)
deriving DecidableEq

/-- `GetTable::GetTable(name)`. -/
def GetTable.new (name : String) : GetTable := ⟨name, none⟩

/-- `GetTable::set_excluded_chunks`: store the supplied chunk-id list. -/
def GetTable.set_excluded_chunks (g : GetTable) (excluded_chunks : List Nat) : GetTable :=
  { g with _excluded_chunks := some excluded_chunks }

/-- `GetTable::recreate` (lines 31–33): a fresh operator built from `_name`
alone (the `args` vector is ignored by the source and omitted here). -/
def GetTable.recreate (g : GetTable) : GetTable :=
  GetTable.new g._name

/-- Chunk loop of `GetTable::_on_execute` (lines 44–49): for each chunk id
in order, skip it when excluded, otherwise emplace the same chunk object. -/
def prunedChunksGo {α : Type} (excluded : List Nat) :
    Nat → List (Chunk α) → List (Chunk α)
  | _, [] => []
  | i, c :: cs =>
    if i ∈ excluded then prunedChunksGo excluded (i + 1) cs
    else c :: prunedChunksGo excluded (i + 1) cs

/-- `GetTable::_on_execute` (lines 35–51): look the table up in the storage
registry (modelled as an association list, per spec §6); return it
unchanged when the exclusion set is absent or empty; otherwise build a
layout clone holding the non-excluded chunks in order. -/
def GetTable._on_execute {α : Type} (registry : List (String × Table α))
    (g : GetTable) : Except GetTableError (Table α) :=
  match registry.lookup g._name with
  | none => .error .notFound
  | some original_table =>
    match g._excluded_chunks with
    | none => .ok original_table
    | some excluded =>
      if excluded.isEmpty then .ok original_table
      else
        .ok { column_types := original_table.column_types
              max_chunk_size := original_table.max_chunk_size
              chunks := prunedChunksGo excluded 0 original_table.chunks }

/-- Column data exercising the width boundary: 255 distinct integers. -/
def c2values : List Int := (List.range 255).map Int.ofNat

/-- Observation helper for concrete statements: the dictionary of a
compression result (empty list on the error branch). -/
def resultDictionary {α : Type}
    (r : Except CompressionError (Column α × Option (ChunkColumnStatistics α))) :
    List α :=
  match r with
  | .ok (.dictionary dc, _) => dc.dictionary
  | _ => []

/-- Observation helper for concrete statements: the attribute-vector width
of a compression result (0 on the error branch). -/
def resultWidth {α : Type}
    (r : Except CompressionError (Column α × Option (ChunkColumnStatistics α))) :
    Nat :=
  match r with
  | .ok (.dictionary dc, _) => dc.attribute_vector.width
  | _ => 0

/-- Concrete single-column chunk holding one integer value column. -/
def intValueChunk (values : List Int) : Chunk Int :=
  ⟨[Column.value ⟨values, none⟩], none⟩

/-- Concrete already-compressed single-column chunk. -/
def intDictChunk : Chunk Int :=
  ⟨[Column.dictionary ⟨[1], ⟨1, [0]⟩⟩], none⟩

/-- Concrete one-chunk table whose single column is already compressed. -/
def intDictTable : Table Int :=
  ⟨[DataType.int], 0, [intDictChunk]⟩

/-- Concrete four-chunk table for the pruning scenario (spec §8
scenario 5). -/
def fourChunkTable : Table Int :=
  ⟨[DataType.int], 7,
    [intValueChunk [10], intValueChunk [20], intValueChunk [30],
      intValueChunk [40]]⟩

/-! ### Lemmas about the null-partition loop -/

theorem listSwap_length {α : Type} (l : List α) (i j : Nat) :
    (listSwap l i j).length = l.length := by
  unfold listSwap
  cases h1 : l[i]? <;> cases h2 : l[j]? <;> simp

theorem listSwap_getElem? {α : Type} (l : List α) (i j k : Nat)
    (hi : i < l.length) (hj : j < l.length) :
    (listSwap l i j)[k]? =
      if k = j then l[i]? else if k = i then l[j]? else l[k]? := by
  simp only [listSwap, List.getElem?_eq_getElem hi, List.getElem?_eq_getElem hj]
  by_cases hkj : k = j
  · subst hkj
    rw [if_pos rfl, List.getElem?_set_self (by simpa using hj)]
  · rw [if_neg hkj, List.getElem?_set_ne fun h => hkj h.symm]
    by_cases hki : k = i
    · subst hki
      rw [if_pos rfl, List.getElem?_set_self hi]
    · rw [if_neg hki, List.getElem?_set_ne fun h => hki h.symm]

/-- Values at the non-null positions below `i`, in position order. -/
def keptPrefix {α : Type} (null_values : List Bool) (arr : List α) (i : Nat) :
    List α :=
  (List.range i).filterMap fun j =>
    if null_values.getD j false then none else arr[j]?

theorem keptPrefix_zero {α : Type} (null_values : List Bool) (arr : List α) :
    keptPrefix null_values arr 0 = [] := rfl

theorem keptPrefix_succ_null {α : Type} {null_values : List Bool} (arr : List α)
    {i : Nat} (h : null_values.getD i false = true) :
    keptPrefix null_values arr (i + 1) = keptPrefix null_values arr i := by
  simp only [List.getD_eq_getElem?_getD] at h
  simp [keptPrefix, List.range_succ, h]

theorem keptPrefix_succ_notNull {α : Type} {null_values : List Bool} {arr : List α}
    {i : Nat} (h : null_values.getD i false = false) (hi : i < arr.length) :
    keptPrefix null_values arr (i + 1)
      = keptPrefix null_values arr i ++ [arr.get ⟨i, hi⟩] := by
  simp only [List.getD_eq_getElem?_getD] at h
  simp [keptPrefix, List.range_succ, h, List.getElem?_eq_getElem hi]

theorem keptPrefix_congr {α : Type} {null_values : List Bool}
    {arr arr' : List α} {i : Nat} (h : ∀ j, j < i → arr'[j]? = arr[j]?) :
    keptPrefix null_values arr' i = keptPrefix null_values arr i := by
  unfold keptPrefix
  refine List.filterMap_congr fun j hj => ?_
  rw [List.mem_range] at hj
  rw [h j hj]
/-- Invariant of the swap loop: the kept prefix of the partition state is a
permutation of the non-null values below position `i` followed by the
not-yet-visited slice `[i, e)`. -/
theorem partitionNullsGo_perm {α : Type} (null_values : List Bool) :
    ∀ (i : Nat) (arr : List α) (e : Nat), i ≤ e → e ≤ arr.length →
      ((partitionNullsGo null_values arr e i).1.take
          (partitionNullsGo null_values arr e i).2).Perm
        (keptPrefix null_values arr i ++ (arr.take e).drop i)
  | 0, arr, e, _, _ => by
    simp [partitionNullsGo, keptPrefix_zero]
  | i + 1, arr, e, hie, hel => by
    have hi_lt : i < arr.length := by omega
    by_cases hn : null_values.getD i false
    · -- a null row: the entry is swapped out to position e-1 and dropped
      have he1 : e - 1 < arr.length := by omega
      have hswaplen : (listSwap arr i (e - 1)).length = arr.length :=
        listSwap_length arr i (e - 1)
      have hn2 : null_values[i]?.getD false = true := by
        simp only [List.getD_eq_getElem?_getD] at hn
        exact hn
      have hstep : partitionNullsGo null_values arr e (i + 1)
          = partitionNullsGo null_values (listSwap arr i (e - 1)) (e - 1) i := by
        simp [partitionNullsGo, hn2]
      rw [hstep]
      have ih := partitionNullsGo_perm null_values i (listSwap arr i (e - 1)) (e - 1)
        (by omega) (by omega)
      refine ih.trans ?_
      have hkeep : keptPrefix null_values (listSwap arr i (e - 1)) i
          = keptPrefix null_values arr i := by
        refine keptPrefix_congr fun j hj => ?_
        rw [listSwap_getElem? arr i (e - 1) j hi_lt he1,
          if_neg (by omega), if_neg (by omega)]
      rw [hkeep, ← keptPrefix_succ_null arr hn]
      refine List.Perm.append_left _ ?_
      by_cases hie1 : i < e - 1
      · have hA : ((listSwap arr i (e - 1)).take (e - 1)).drop i
            = arr.get ⟨e - 1, he1⟩ :: ((arr.take (e - 1)).drop (i + 1)) := by
          apply List.ext_getElem?
          intro k
          cases k with
          | zero =>
            rw [List.getElem?_drop, List.getElem?_take, Nat.add_zero,
              if_pos (by omega), listSwap_getElem? arr i (e - 1) i hi_lt he1,
              if_neg (by omega), if_pos rfl, List.getElem?_eq_getElem he1]
            simp
          | succ k =>
            simp only [List.getElem?_drop, List.getElem?_cons_succ, List.getElem?_take]
            have hidx : i + (k + 1) = i + 1 + k := by omega
            rw [hidx]
            by_cases hk : i + 1 + k < e - 1
            · rw [if_pos hk, if_pos hk,
                listSwap_getElem? arr i (e - 1) (i + 1 + k) hi_lt he1,
                if_neg (by omega), if_neg (by omega)]
            · rw [if_neg hk, if_neg hk]
        have hB : (arr.take e).drop (i + 1)
            = ((arr.take (e - 1)).drop (i + 1)) ++ [arr.get ⟨e - 1, he1⟩] := by
          have he' : e = (e - 1) + 1 := by omega
          have htake : arr.take e = arr.take (e - 1) ++ [arr.get ⟨e - 1, he1⟩] := by
            conv_lhs => rw [he']
            rw [List.take_succ, List.getElem?_eq_getElem he1]
            simp
          rw [htake, List.drop_append_of_le_length ?_]
          simp only [List.length_take]
          omega
        rw [hA, hB]
        exact (List.perm_append_singleton _ _).symm
      · -- i = e-1: both remaining slices are empty
        have hnilA : ((listSwap arr i (e - 1)).take (e - 1)).drop i = [] := by
          apply List.drop_eq_nil_of_le
          simp only [List.length_take, hswaplen]
          omega
        have hnilB : (arr.take e).drop (i + 1) = [] := by
          apply List.drop_eq_nil_of_le
          simp only [List.length_take]
          omega
        rw [hnilA, hnilB]
    · -- a non-null row: nothing happens at this position
      have hn' : null_values.getD i false = false := by
        simp only [Bool.not_eq_true] at hn
        exact hn
      have hn2 : null_values[i]?.getD false = false := by simpa using hn'
      have hstep : partitionNullsGo null_values arr e (i + 1)
          = partitionNullsGo null_values arr e i := by
        simp [partitionNullsGo, hn2]
      rw [hstep]
      have ih := partitionNullsGo_perm null_values i arr e (by omega) hel
      refine ih.trans ?_
      rw [keptPrefix_succ_notNull hn' hi_lt]
      have hlen : i < (arr.take e).length := by
        simp only [List.length_take]
        omega
      have hdrop : (arr.take e).drop i
          = (arr.take e).get ⟨i, hlen⟩ :: (arr.take e).drop (i + 1) := by
        exact List.drop_eq_getElem_cons hlen
      have hhead : (arr.take e).get ⟨i, hlen⟩ = arr.get ⟨i, hi_lt⟩ := by
        have h1 : (arr.take e)[i]? = arr[i]? := by
          rw [List.getElem?_take, if_pos (by omega)]
        rw [List.getElem?_eq_getElem hlen, List.getElem?_eq_getElem hi_lt] at h1
        simp only [Option.some.injEq] at h1
        simp only [List.get_eq_getElem]
        exact h1
      rw [hdrop, hhead]
      simp

/-- The null-partition phase keeps exactly the non-null values: the erased
scratch is a permutation of the values of the non-null rows in position
order. -/
theorem removeNulls_perm {α : Type} (values : List α) (null_values : List Bool) :
    (removeNulls values null_values).Perm
      (keptPrefix null_values values values.length) := by
  have h := partitionNullsGo_perm null_values values.length values values.length
    le_rfl le_rfl
  have hnil : (values.take values.length).drop values.length = [] := by
    apply List.drop_eq_nil_of_le
    simp
  rw [hnil, List.append_nil] at h
  exact h

theorem mem_keptPrefix {α : Type} {null_values : List Bool} {arr : List α}
    {x : α} {n : Nat} :
    x ∈ keptPrefix null_values arr n
      ↔ ∃ j, j < n ∧ null_values.getD j false = false ∧ arr[j]? = some x := by
  simp only [keptPrefix, List.mem_filterMap, List.mem_range]
  constructor
  · rintro ⟨j, hj, hfx⟩
    by_cases hnull : null_values.getD j false
    · rw [if_pos hnull] at hfx
      exact absurd hfx (by simp)
    · rw [if_neg hnull] at hfx
      exact ⟨j, hj, by simpa using hnull, hfx⟩
  · rintro ⟨j, hj, hnull, hx⟩
    refine ⟨j, hj, ?_⟩
    rw [hnull]
    simpa using hx

/-- Membership characterisation of the scratch after null removal: exactly
the values of the non-null rows. -/
theorem mem_dictionaryScratch {α : Type} {value_column : ValueColumn α} {x : α} :
    x ∈ dictionaryScratch value_column
      ↔ ∃ i, value_column.values[i]? = some x ∧ value_column.isNullRow i = false := by
  unfold dictionaryScratch
  unfold ValueColumn.isNullRow
  cases hnv : value_column.null_values with
  | none =>
    simp [List.mem_iff_getElem?]
  | some null_values =>
    rw [(removeNulls_perm value_column.values null_values).mem_iff, mem_keptPrefix]
    constructor
    · rintro ⟨j, _, hnull, hx⟩
      exact ⟨j, hx, hnull⟩
    · rintro ⟨j, hx, hnull⟩
      have hj : j < value_column.values.length := by
        by_contra hge
        rw [List.getElem?_eq_none (by omega)] at hx
        exact Option.noConfusion hx
      exact ⟨j, hj, hnull, hx⟩

theorem mem_dedupAdj {α : Type} [DecidableEq α] :
    ∀ (l : List α) (x : α), x ∈ dedupAdj l ↔ x ∈ l
  | [], x => by simp [dedupAdj]
  | [a], x => by simp [dedupAdj]
  | a :: b :: rest, x => by
    simp only [dedupAdj]
    by_cases hab : a = b
    · rw [if_pos hab, mem_dedupAdj (b :: rest) x]
      subst hab
      simp [List.mem_cons]
    · rw [if_neg hab]
      simp only [List.mem_cons, mem_dedupAdj (b :: rest) x]

theorem sorted_lt_dedupAdj {α : Type} [LinearOrder α] [DecidableEq α] :
    ∀ (l : List α), l.Sorted (· ≤ ·) → (dedupAdj l).Sorted (· < ·)
  | [], _ => by simp [dedupAdj]
  | [a], _ => by simp [dedupAdj]
  | a :: b :: rest, h => by
    have hparts := List.sorted_cons.mp h
    have hab : a ≤ b := hparts.1 b (by simp)
    have htail : (b :: rest).Sorted (· ≤ ·) := hparts.2
    have ih := sorted_lt_dedupAdj (b :: rest) htail
    simp only [dedupAdj]
    by_cases he : a = b
    · rw [if_pos he]
      exact ih
    · rw [if_neg he]
      refine List.sorted_cons.mpr ⟨?_, ih⟩
      intro c hc
      have hcmem : c ∈ b :: rest := (mem_dedupAdj _ _).mp hc
      have hbc : b ≤ c := by
        rcases List.mem_cons.mp hcmem with hcb | hcr
        · exact le_of_eq hcb.symm
        · exact (List.sorted_cons.mp htail).1 c hcr
      exact lt_of_lt_of_le (lt_of_le_of_ne hab he) hbc

/-- The compressed dictionary is strictly sorted ascending. -/
theorem compressedDictionary_sorted {α : Type} [LinearOrder α] [DecidableEq α]
    (value_column : ValueColumn α) :
    (compressedDictionary value_column).Sorted (· < ·) := by
  unfold compressedDictionary
  exact sorted_lt_dedupAdj _ (List.sorted_insertionSort _ _)

/-- The compressed dictionary holds exactly the values of the non-null
rows. -/
theorem mem_compressedDictionary {α : Type} [LinearOrder α] [DecidableEq α]
    {value_column : ValueColumn α} {x : α} :
    x ∈ compressedDictionary value_column
      ↔ ∃ i, value_column.values[i]? = some x ∧ value_column.isNullRow i = false := by
  unfold compressedDictionary
  rw [mem_dedupAdj, List.mem_insertionSort]
  exact mem_dictionaryScratch

/-! ### Lemmas about `lower_bound` and the attribute-vector entries -/

/-- `lower_bound` of the head element is position 0 (irrespective of
sortedness). -/
theorem lower_bound_cons_self {α : Type} [LinearOrder α] (v : α) (t : List α) :
    lower_bound (v :: t) v = 0 := by
  simp [lower_bound, List.findIdx_cons]

/-- On a strictly sorted list containing `value`, `lower_bound` lands
exactly on `value`'s position: the returned distance is the value's 0-based
rank. -/
theorem getElem?_lower_bound {α : Type} [LinearOrder α] :
    ∀ (l : List α), l.Sorted (· < ·) → ∀ {v : α}, v ∈ l →
      l[lower_bound l v]? = some v
  | [], _, v, hv => absurd hv (by simp)
  | a :: t, h, v, hv => by
    rcases List.sorted_cons.mp h with ⟨ha, ht⟩
    by_cases hav : a = v
    · subst hav
      rw [lower_bound_cons_self]
      simp
    · have hvt : v ∈ t := by
        rcases List.mem_cons.mp hv with h1 | h1
        · exact absurd h1.symm hav
        · exact h1
      have hlt : a < v := ha v hvt
      have hstep : lower_bound (a :: t) v = lower_bound t v + 1 := by
        simp [lower_bound, List.findIdx_cons, hlt]
      rw [hstep, List.getElem?_cons_succ]
      exact getElem?_lower_bound t ht hvt

/-- Attribute-vector entry of a non-null row: the raw `get_value_id`
distance. -/
theorem compressedEntries_notNull {α : Type} [LinearOrder α] [DecidableEq α]
    {value_column : ValueColumn α} (hwf : value_column.wf) {i : Nat} {v : α}
    (hnull : value_column.isNullRow i = false)
    (hv : value_column.values[i]? = some v) :
    (compressedEntries value_column)[i]?
      = some (get_value_id (compressedDictionary value_column) v) := by
  have hi : i < value_column.values.length := by
    by_contra hge
    rw [List.getElem?_eq_none (by omega)] at hv
    exact Option.noConfusion hv
  unfold compressedEntries
  unfold ValueColumn.isNullRow at hnull
  unfold ValueColumn.wf at hwf
  cases hnv : value_column.null_values with
  | none =>
    rw [List.getElem?_map, hv]
    rfl
  | some null_values =>
    simp only [hnv] at hnull hwf
    have hleni : i < null_values.length := by omega
    have hfalse : null_values.get ⟨i, hleni⟩ = false := by
      rw [List.getD_eq_getElem?_getD, List.getElem?_eq_getElem hleni] at hnull
      simpa using hnull
    have hnullv : null_values[i]? = some false := by
      rw [List.getElem?_eq_getElem hleni]
      simpa using hfalse
    have hzip : (value_column.values.zip null_values)[i]? = some (v, false) :=
      List.getElem?_zip_eq_some.mpr ⟨hv, hnullv⟩
    rw [List.getElem?_map, hzip]
    rfl

/-- Attribute-vector entry of a null row: `NULL_VALUE_ID`. -/
theorem compressedEntries_null {α : Type} [LinearOrder α] [DecidableEq α]
    {value_column : ValueColumn α} (hwf : value_column.wf) {j : Nat}
    (hnull : value_column.isNullRow j = true)
    (hj : j < value_column.values.length) :
    (compressedEntries value_column)[j]? = some NULL_VALUE_ID := by
  unfold compressedEntries
  unfold ValueColumn.isNullRow at hnull
  unfold ValueColumn.wf at hwf
  cases hnv : value_column.null_values with
  | none =>
    simp only [hnv] at hnull
    exact Bool.noConfusion hnull
  | some null_values =>
    simp only [hnv] at hnull hwf
    have hlenj : j < null_values.length := by
      by_contra hge
      rw [List.getD_eq_getElem?_getD, List.getElem?_eq_none (by omega)] at hnull
      simp at hnull
    have htrue : null_values.get ⟨j, hlenj⟩ = true := by
      rw [List.getD_eq_getElem?_getD, List.getElem?_eq_getElem hlenj] at hnull
      simpa using hnull
    have hnullv : null_values[j]? = some true := by
      rw [List.getElem?_eq_getElem hlenj]
      simpa using htrue
    have hval : ∃ v, value_column.values[j]? = some v :=
      ⟨value_column.values.get ⟨j, hj⟩, List.getElem?_eq_getElem hj⟩
    obtain ⟨v, hv⟩ := hval
    have hzip : (value_column.values.zip null_values)[j]? = some (v, true) :=
      List.getElem?_zip_eq_some.mpr ⟨hv, hnullv⟩
    rw [List.getElem?_map, hzip]
    rfl

/-- Unfolding equation of `compress_column` on a value column. -/
theorem compress_column_value {α : Type} [LinearOrder α] [DecidableEq α]
    (value_column : ValueColumn α) :
    ColumnCompressor.compress_column (Column.value value_column)
      = .ok (.dictionary ⟨compressedDictionary value_column,
            ⟨compressedWidth value_column, compressedEntries value_column⟩⟩,
          compressedStatistics value_column) := rfl

/-- Inversion: any successful compression of a value column produces
exactly the staged components. -/
theorem compress_column_ok_inv {α : Type} [LinearOrder α] [DecidableEq α]
    {value_column : ValueColumn α} {dc : DictionaryColumn α}
    {stats : Option (ChunkColumnStatistics α)}
    (h : ColumnCompressor.compress_column (Column.value value_column)
      = .ok (.dictionary dc, stats)) :
    dc.dictionary = compressedDictionary value_column
      ∧ dc.attribute_vector.width = compressedWidth value_column
      ∧ dc.attribute_vector.entries = compressedEntries value_column
      ∧ stats = compressedStatistics value_column := by
  have h' := h
  rw [compress_column_value value_column] at h'
  simp only [Except.ok.injEq, Prod.mk.injEq, Column.dictionary.injEq] at h'
  obtain ⟨hdc, hstats⟩ := h'
  subst hdc
  exact ⟨rfl, rfl, rfl, hstats.symm⟩

theorem getLast?_cons_getLastD {α : Type} (x : α) (xs : List α) :
    (x :: xs).getLast? = some (xs.getLastD x) := by
  induction xs generalizing x with
  | nil => rfl
  | cons y ys ih =>
    rw [List.getLast?_cons_cons, ih y, List.getLastD_cons]

/-! ### Claim theorems -/

/-- C6: for every compressed column, a statistics record is produced if and
only if the dictionary is non-empty, and when produced its minimum equals
the first dictionary entry and its maximum the last. -/
theorem compress_column_statistics_minmax {α : Type} [LinearOrder α] [DecidableEq α]
    (value_column : ValueColumn α) (dc : DictionaryColumn α)
    (stats : Option (ChunkColumnStatistics α))
    (h : ColumnCompressor.compress_column (Column.value value_column)
      = .ok (.dictionary dc, stats)) :
    (stats = none ↔ dc.dictionary = [])
      ∧ ∀ s, stats = some s →
          dc.dictionary.head? = some s.min ∧ dc.dictionary.getLast? = some s.max := by
  obtain ⟨hd, -, -, hs⟩ := compress_column_ok_inv h
  subst hs
  rw [hd]
  unfold compressedStatistics
  cases hdict : compressedDictionary value_column with
  | nil => simp
  | cons x xs =>
    refine ⟨by simp, ?_⟩
    intro s hssome
    simp only [Option.some.injEq] at hssome
    subst hssome
    exact ⟨rfl, getLast?_cons_getLastD x xs⟩

/-- Witness for C6 at the integer column `[5, 1, 3, 1, 5]`: the dictionary
is `[1, 3, 5]` and the statistics record is `(1, 5)`. -/
theorem compress_column_statistics_minmax_witness :
    ((some ⟨1, 5⟩ : Option (ChunkColumnStatistics Int)) = none
        ↔ ([1, 3, 5] : List Int) = [])
      ∧ ∀ s, (some ⟨1, 5⟩ : Option (ChunkColumnStatistics Int)) = some s →
          ([1, 3, 5] : List Int).head? = some s.min
            ∧ ([1, 3, 5] : List Int).getLast? = some s.max :=
  compress_column_statistics_minmax ⟨[5, 1, 3, 1, 5], none⟩
    ⟨[1, 3, 5], ⟨1, [2, 0, 1, 0, 2]⟩⟩ (some ⟨1, 5⟩) (by rfl)

/-- C10: `recreate` keeps only the table name; the excluded-chunk
configuration is dropped, also when `set_excluded_chunks` had been
called. -/
theorem getTable_recreate_drops_exclusions (g : GetTable) (excluded : List Nat) :
    GetTable.recreate (GetTable.set_excluded_chunks g excluded)
        = ⟨g._name, none⟩
      ∧ (GetTable.recreate (GetTable.set_excluded_chunks g excluded))._excluded_chunks
        = none
      ∧ (GetTable.recreate g)._name = g._name
      ∧ (GetTable.recreate g)._excluded_chunks = none :=
  ⟨rfl, rfl, rfl, rfl⟩

/-- C2 (amended): the attribute vector's width is 1 byte when the dictionary
has at most 254 entries, 2 bytes when it has at most 65534 entries, and
4 bytes otherwise — the width is fitted from `dictionary.size() + 1`, so
the byte boundaries sit one below the claim's 255/65535. -/
theorem compress_column_width_fitted {α : Type} [LinearOrder α] [DecidableEq α]
    (value_column : ValueColumn α) (dc : DictionaryColumn α)
    (stats : Option (ChunkColumnStatistics α))
    (h : ColumnCompressor.compress_column (Column.value value_column)
      = .ok (.dictionary dc, stats)) :
    (dc.dictionary.length ≤ 254 → dc.attribute_vector.width = 1)
      ∧ (254 < dc.dictionary.length → dc.dictionary.length ≤ 65534 →
          dc.attribute_vector.width = 2)
      ∧ (65534 < dc.dictionary.length → dc.attribute_vector.width = 4) := by
  obtain ⟨hd, hw, -, -⟩ := compress_column_ok_inv h
  rw [hd, hw]
  unfold compressedWidth fittedWidth
  refine ⟨fun h1 => ?_, fun h1 h2 => ?_, fun h1 => ?_⟩
  · rw [if_pos (by omega)]
  · rw [if_neg (by omega), if_pos (by omega)]
  · rw [if_neg (by omega), if_neg (by omega)]

/-- Witness for the amended C2 at the integer column `[5, 1, 3, 1, 5]`:
3 dictionary entries, width 1. -/
theorem compress_column_width_fitted_witness :
    ({ width := 1, entries := [2, 0, 1, 0, 2] } : FittedAttributeVector).width = 1 :=
  (compress_column_width_fitted ⟨([5, 1, 3, 1, 5] : List Int), none⟩
    ⟨[1, 3, 5], ⟨1, [2, 0, 1, 0, 2]⟩⟩ (some ⟨1, 5⟩) (by rfl)).1 (by decide)

set_option maxRecDepth 4000 in
/-- Counterexample to C2 as stated: a column with 255 distinct values gets a
dictionary of 255 entries but an attribute vector of width 2, not 1 — the
code compares `dictionary.size() + 1 = 256` against 255. -/
theorem compress_column_width_at_255_is_2 :
    resultDictionary (ColumnCompressor.compress_column
        (Column.value ⟨c2values, none⟩)) = c2values
      ∧ (resultDictionary (ColumnCompressor.compress_column
          (Column.value ⟨c2values, none⟩))).length = 255
      ∧ resultWidth (ColumnCompressor.compress_column
          (Column.value ⟨c2values, none⟩)) = 2 := by
  refine ⟨by rfl, by rfl, by rfl⟩

/-- C3: the dictionary of a compressed column contains exactly the distinct
values of the non-null rows (no null-masked value is admitted) and is
strictly sorted ascending with no duplicates. -/
theorem compress_column_dictionary_exact_sorted {α : Type} [LinearOrder α]
    [DecidableEq α] (value_column : ValueColumn α) (dc : DictionaryColumn α)
    (stats : Option (ChunkColumnStatistics α))
    (h : ColumnCompressor.compress_column (Column.value value_column)
      = .ok (.dictionary dc, stats)) :
    (∀ x, x ∈ dc.dictionary
        ↔ ∃ i, value_column.values[i]? = some x
            ∧ value_column.isNullRow i = false)
      ∧ dc.dictionary.Sorted (· < ·)
      ∧ dc.dictionary.Nodup := by
  obtain ⟨hd, -, -, -⟩ := compress_column_ok_inv h
  rw [hd]
  exact ⟨fun x => mem_compressedDictionary,
    compressedDictionary_sorted value_column,
    (compressedDictionary_sorted value_column).nodup⟩

/-- Witness for C3 at the nullable integer column `[3, 1, 9]` with null mask
`[false, false, true]`: dictionary `[1, 3]` — the null-masked value 9 is not
admitted. -/
theorem compress_column_dictionary_exact_sorted_witness :
    (∀ x, x ∈ ([1, 3] : List Int)
        ↔ ∃ i, (⟨[3, 1, 9], some [false, false, true]⟩ :
              ValueColumn Int).values[i]? = some x
            ∧ (⟨[3, 1, 9], some [false, false, true]⟩ :
              ValueColumn Int).isNullRow i = false)
      ∧ ([1, 3] : List Int).Sorted (· < ·)
      ∧ ([1, 3] : List Int).Nodup :=
  compress_column_dictionary_exact_sorted
    ⟨[3, 1, 9], some [false, false, true]⟩
    ⟨[1, 3], ⟨1, [1, 0, 0]⟩⟩ (some ⟨1, 3⟩) (by rfl)

/-- C9: the attribute-vector entry of every non-null row is the 0-based rank
of the row's value in the sorted deduplicated dictionary; rows holding the
dictionary's minimum get ValueId 0 = `NULL_VALUE_ID`, the same entry that
null rows get — such rows are indistinguishable from nulls in the encoded
column. -/
theorem compress_column_rank_and_null_collision {α : Type} [LinearOrder α]
    [DecidableEq α] (value_column : ValueColumn α) (dc : DictionaryColumn α)
    (stats : Option (ChunkColumnStatistics α)) (hwf : value_column.wf)
    (h : ColumnCompressor.compress_column (Column.value value_column)
      = .ok (.dictionary dc, stats)) :
    (∀ i v, value_column.isNullRow i = false →
        value_column.values[i]? = some v →
        ∃ k, dc.attribute_vector.entries[i]? = some k
          ∧ dc.dictionary[k]? = some v)
      ∧ (∀ i v, value_column.isNullRow i = false →
          value_column.values[i]? = some v →
          dc.dictionary.head? = some v →
          dc.attribute_vector.entries[i]? = some NULL_VALUE_ID)
      ∧ (∀ j, value_column.isNullRow j = true →
          j < value_column.values.length →
          dc.attribute_vector.entries[j]? = some NULL_VALUE_ID) := by
  obtain ⟨hd, -, he, -⟩ := compress_column_ok_inv h
  rw [hd, he]
  refine ⟨?_, ?_, ?_⟩
  · intro i v hnull hv
    refine ⟨get_value_id (compressedDictionary value_column) v,
      compressedEntries_notNull hwf hnull hv, ?_⟩
    have hmem : v ∈ compressedDictionary value_column :=
      mem_compressedDictionary.mpr ⟨i, hv, hnull⟩
    exact getElem?_lower_bound _ (compressedDictionary_sorted value_column) hmem
  · intro i v hnull hv hhead
    have hent := compressedEntries_notNull hwf hnull hv
    cases hdict : compressedDictionary value_column with
    | nil =>
      rw [hdict] at hhead
      exact absurd hhead (by simp)
    | cons x xs =>
      rw [hdict] at hhead hent
      simp only [List.head?_cons, Option.some.injEq] at hhead
      subst hhead
      rw [hent]
      unfold get_value_id
      rw [lower_bound_cons_self]
      rfl
  · intro j hnull hj
    exact compressedEntries_null hwf hnull hj

/-- Witness for C9 at the nullable integer column `[3, 1, 9]` with null mask
`[false, false, true]`: row 1 holds the dictionary minimum 1 and receives
entry 0 = `NULL_VALUE_ID`, exactly like the null row 2. -/
theorem compress_column_rank_and_null_collision_witness :
    (∃ k, ([1, 0, 0] : List Nat)[1]? = some k ∧ ([1, 3] : List Int)[k]? = some 1)
      ∧ ([1, 0, 0] : List Nat)[1]? = some NULL_VALUE_ID
      ∧ ([1, 0, 0] : List Nat)[2]? = some NULL_VALUE_ID := by
  have h := compress_column_rank_and_null_collision (α := Int)
    ⟨[3, 1, 9], some [false, false, true]⟩
    ⟨[1, 3], ⟨1, [1, 0, 0]⟩⟩ (some ⟨1, 3⟩) (by rfl) (by rfl)
  exact ⟨h.1 1 1 (by rfl) (by rfl),
    h.2.1 1 1 (by rfl) (by rfl) (by rfl),
    h.2.2 2 (by rfl) (by decide)⟩

/-- C1 (refuted; the claim matches the spec's intent, the code drops the
`+1`): `get_value_id` stores the raw `lower_bound` distance, so on the
spec's own scenario `[5, 1, 3, 1, 5]` the code produces attribute vector
`[2, 0, 1, 0, 2]` instead of the claimed `[3, 1, 2, 1, 3]`; the claimed
decode `dictionary[av[0]-1] = 5` fails (`dictionary[1] = 3`), and the
non-null row 1 (value 1) receives `NULL_VALUE_ID`. -/
theorem compress_column_no_plus_one_offset :
    ColumnCompressor.compress_column
        (Column.value ⟨([5, 1, 3, 1, 5] : List Int), none⟩)
        = .ok (.dictionary ⟨[1, 3, 5], ⟨1, [2, 0, 1, 0, 2]⟩⟩, some ⟨1, 5⟩)
      ∧ ([1, 3, 5] : List Int).getD (2 - 1) 0 ≠ 5
      ∧ ([2, 0, 1, 0, 2] : List Nat).getD 1 0 = NULL_VALUE_ID :=
  ⟨by rfl, by decide, by rfl⟩

/-- C5: compressing a table whose columns are already dictionary columns
fails with the already-compressed (State) error on the first column, and no
partial state is committed — the returned table state is the input
unchanged: no column replaced, no statistics installed. -/
theorem compress_table_already_compressed {α : Type} [LinearOrder α]
    [DecidableEq α] (debug : Bool) (t : Table α) (c0 : Chunk α)
    (rest : List (Chunk α))
    (hchunks : t.chunks = c0 :: rest)
    (hne : c0.columns ≠ [])
    (hall : ∀ c ∈ t.chunks, ∀ col ∈ c.columns,
      ∃ dcol, col = Column.dictionary dcol)
    (hlen : t.column_types.length = c0.columns.length) :
    DictionaryCompression.compress_table debug t
      = (.error .alreadyCompressed, t) := by
  cases hcols : c0.columns with
  | nil => exact absurd hcols hne
  | cons col cs =>
    have hcol : ∃ dcol, col = Column.dictionary dcol := by
      refine hall c0 ?_ col ?_
      · rw [hchunks]
        exact List.mem_cons_self c0 rest
      · rw [hcols]
        exact List.mem_cons_self col cs
    obtain ⟨dcol, hdcol⟩ := hcol
    have hcc : compressColumnsGo c0.columns
        = (.error .alreadyCompressed, c0.columns) := by
      rw [hcols, hdcol]
      rfl
    have hchunk : DictionaryCompression.compress_chunk debug t.column_types c0
        = (.error .alreadyCompressed, c0) := by
      unfold DictionaryCompression.compress_chunk
      rw [if_neg (by simp [hlen]), hcc]
    have hgo : compressTableGo debug t.column_types (c0 :: rest)
        = (.error .alreadyCompressed, c0 :: rest) := by
      simp only [compressTableGo]
      rw [hchunk]
    unfold DictionaryCompression.compress_table
    rw [hchunks, hgo, ← hchunks]

/-- Witness for C5: a one-chunk table with one already-compressed column;
compression (debug build, matching type vector) errors and the table is
returned unchanged. -/
theorem compress_table_already_compressed_witness :
    DictionaryCompression.compress_table true intDictTable
      = (.error .alreadyCompressed, intDictTable) := by
  refine compress_table_already_compressed true intDictTable intDictChunk []
    rfl (by decide) ?_ rfl
  intro c hc col hcol
  simp only [intDictTable, List.mem_singleton] at hc
  subst hc
  simp only [intDictChunk, List.mem_singleton] at hcol
  subst hcol
  exact ⟨⟨[1], ⟨1, [0]⟩⟩, rfl⟩

/-- C8 (refuted; the spec's SchemaMismatch policy is the intent, the code
uses an assertion): the column-count check of `compress_chunk` is a
`DebugAssert` — a debug build aborts with the assertion, not with a
caller-visible SchemaMismatch diagnostic, and a release build skips the
check entirely and proceeds to compress. -/
theorem compress_chunk_size_check_is_debug_assert :
    DictionaryCompression.compress_chunk true ([] : List DataType)
        (intValueChunk [1, 2])
      = (.error .debugAssert, intValueChunk [1, 2])
      ∧ DictionaryCompression.compress_chunk false ([] : List DataType)
          (intValueChunk [1, 2])
        = (.ok [some ⟨1, 2⟩],
            ⟨[Column.dictionary ⟨[1, 2], ⟨1, [0, 1]⟩⟩], some [some ⟨1, 2⟩]⟩) :=
  ⟨by rfl, by rfl⟩

/-- The emplace loop keeps, in order, exactly the chunks whose id (starting
at `i`) is not excluded. -/
theorem prunedChunksGo_eq_enumFrom {α : Type} (excluded : List Nat) :
    ∀ (cs : List (Chunk α)) (i : Nat),
      prunedChunksGo excluded i cs
        = ((cs.enumFrom i).filter fun p => decide (p.1 ∉ excluded)).map Prod.snd
  | [], i => rfl
  | c :: cs, i => by
    simp only [prunedChunksGo, List.enumFrom_cons, List.filter_cons]
    by_cases hmem : i ∈ excluded
    · rw [if_pos hmem]
      simp [hmem, prunedChunksGo_eq_enumFrom excluded cs (i + 1)]
    · rw [if_neg hmem]
      simp [hmem, prunedChunksGo_eq_enumFrom excluded cs (i + 1)]

/-- Length of the emplace loop's result: the chunk count minus the number of
valid ids (from `i`) in the exclusion set. -/
theorem prunedChunksGo_length {α : Type} (excluded : List Nat) :
    ∀ (cs : List (Chunk α)) (i : Nat),
      (prunedChunksGo excluded i cs).length
        = cs.length
          - ((List.range' i cs.length).filter fun j => decide (j ∈ excluded)).length
  | [], i => rfl
  | c :: cs, i => by
    have hle : ((List.range' (i + 1) cs.length).filter
        fun j => decide (j ∈ excluded)).length ≤ cs.length := by
      have h1 := List.length_filter_le (fun j => decide (j ∈ excluded))
        (List.range' (i + 1) cs.length)
      simpa using h1
    have ih := prunedChunksGo_length excluded cs (i + 1)
    simp only [prunedChunksGo, List.length_cons, List.range'_succ, List.filter_cons]
    by_cases hmem : i ∈ excluded
    · rw [if_pos hmem, if_pos (by simpa using hmem)]
      simp only [List.length_cons, ih]
      omega
    · rw [if_neg hmem, if_neg (by simpa using hmem)]
      simp only [List.length_cons, ih]
      omega

/-- C4: executing the table-access operator on a registered table returns
the original table itself when the exclusion set is absent or empty;
otherwise it returns a new table with the same schema and chunk-size policy
whose chunk sequence is exactly the subsequence of the original chunks (the
same chunk objects, in the original order) whose ids are not excluded, so
its chunk count is the original count minus the number of valid excluded
ids.  The embedding is pure, so the original table is left unmodified. -/
theorem getTable_execute_prunes {α : Type} (registry : List (String × Table α))
    (g : GetTable) (t : Table α)
    (hlook : registry.lookup g._name = some t) :
    (g._excluded_chunks = none → GetTable._on_execute registry g = .ok t)
      ∧ (g._excluded_chunks = some [] → GetTable._on_execute registry g = .ok t)
      ∧ ∀ excluded, g._excluded_chunks = some excluded → excluded ≠ [] →
          GetTable._on_execute registry g
              = .ok ⟨t.column_types, t.max_chunk_size,
                  ((t.chunks.enum.filter fun p => decide (p.1 ∉ excluded)).map
                    Prod.snd)⟩
            ∧ ((t.chunks.enum.filter fun p => decide (p.1 ∉ excluded)).map
                  Prod.snd).length
              = t.chunks.length
                - ((List.range t.chunks.length).filter
                    fun j => decide (j ∈ excluded)).length := by
  refine ⟨?_, ?_, ?_⟩
  · intro hnone
    unfold GetTable._on_execute
    rw [hlook, hnone]
  · intro hempty
    unfold GetTable._on_execute
    rw [hlook, hempty]
    rfl
  · intro excluded hexcl hne
    have henum : prunedChunksGo excluded 0 t.chunks
        = ((t.chunks.enum.filter fun p => decide (p.1 ∉ excluded)).map
            Prod.snd) :=
      prunedChunksGo_eq_enumFrom excluded t.chunks 0
    constructor
    · unfold GetTable._on_execute
      simp only [hlook, hexcl]
      rw [if_neg (by simp [List.isEmpty_iff, hne]), henum]
    · rw [← henum, prunedChunksGo_length excluded t.chunks 0,
        List.range_eq_range']

/-- Witness for C4 (spec §8 scenario 5): four chunks, exclusion set
`{1, 3}`; the view holds chunks 0 and 2 in order and has 4 − 2 chunks. -/
theorem getTable_execute_prunes_witness :
    (GetTable._on_execute [("T", fourChunkTable)] ⟨"T", some [1, 3]⟩
        = .ok ⟨fourChunkTable.column_types, fourChunkTable.max_chunk_size,
            ((fourChunkTable.chunks.enum.filter
              fun p => decide (p.1 ∉ [1, 3])).map Prod.snd)⟩
      ∧ ((fourChunkTable.chunks.enum.filter
            fun p => decide (p.1 ∉ [1, 3])).map Prod.snd).length
        = fourChunkTable.chunks.length
          - ((List.range fourChunkTable.chunks.length).filter
              fun j => decide (j ∈ [1, 3])).length)
      ∧ ((fourChunkTable.chunks.enum.filter
            fun p => decide (p.1 ∉ [1, 3])).map Prod.snd)
        = [intValueChunk [10], intValueChunk [30]]
      ∧ GetTable._on_execute [("T", fourChunkTable)] ⟨"T", none⟩
        = .ok fourChunkTable := by
  refine ⟨(getTable_execute_prunes [("T", fourChunkTable)]
      ⟨"T", some [1, 3]⟩ fourChunkTable (by rfl)).2.2 [1, 3] rfl (by decide),
    by decide,
    (getTable_execute_prunes [("T", fourChunkTable)]
      ⟨"T", none⟩ fourChunkTable (by rfl)).1 rfl⟩

end opossum
